import Mathlib

/-!
Verification of the trajectory lattice construction and decoding engine of
sfdata_wrangler (Trajectory.py), as a shallow embedding in Lean 4.

Floating point values are modelled as rationals; Python lists as Lean lists;
`None` as `Option.none`; raised exceptions as `Option`/`Except` results.
The road-network oracle (HwyNetwork) is an abstract structure of functions,
since only its interface is visible from Trajectory.py.
-/

namespace SFData

/-- An on-network candidate state, carrying its distance to the raw GPS point
(attribute `distFromGPS` read by `point_feature_vector`). -/
structure State where
  distFromGPS : ℚ
deriving DecidableEq

/-- A 2-D position (mm.path_inference.structures.Position). -/
structure Position where
  x : ℚ
  y : ℚ
deriving DecidableEq

/-- A collection of candidate states for one GPS observation
(mm.path_inference.structures.StateCollection). -/
structure StateCollection where
  cab_id : Nat
  states : List State
  position : Position
  time : ℚ
deriving DecidableEq

/-- A candidate path through the network; `links` is its link sequence. -/
structure Path where
  links : List Nat
deriving DecidableEq

/-- One row of the GPS dataframe handed to the Trajectory constructor:
columns x, y, cab_id, time, seconds (elapsed seconds since previous ping). -/
structure Row where
  x : ℚ
  y : ℚ
  cab_id : Nat
  time : ℚ
  seconds : ℚ

/-- The road-network oracle used by Trajectory.py, abstracted to the three
methods the file calls. `getPathsBetweenCollections` returns
(trans1, paths, trans2) where trans1 connects state indices to path indices
and trans2 connects path indices to state indices. -/
structure HwyNetwork where
  project : Position → List State
  getPathsBetweenCollections : StateCollection → StateCollection →
    List (Nat × Nat) × List (Option Path) × List (Nat × Nat)
  getPathFreeFlowTTInSecondsWithTurnPenalties : Path → ℚ

/-- Python's `sys.maxsize` on a 64-bit platform. -/
def maxsize : ℚ := 2 ^ 63 - 1

/-- Trajectory.py `point_feature_vector(sc)`: one `[pathscore, pointscore]`
entry per candidate state, with pathscore 0 and pointscore `-distFromGPS`. -/
def point_feature_vector (sc : StateCollection) : List (ℚ × ℚ) :=
  sc.states.map (fun s => (0, -s.distFromGPS))

/-- Trajectory.py `path_feature_vector(hwynet, path, tt)`: `[-sys.maxsize, 0]`
for a missing or link-less path, else
`[-1.0 * (path_tt + 1.0 * max(path_tt - tt, 0)), 0]` where `path_tt` is the
network's free-flow travel time with turn penalties. -/
def path_feature_vector (hwynet : HwyNetwork) (path : Option Path) (tt : ℚ) :
    ℚ × ℚ :=
  match path with
  | none => (-maxsize, 0)
  | some p =>
    if p.links.length = 0 then (-maxsize, 0)
    else
      let path_tt := hwynet.getPathFreeFlowTTInSecondsWithTurnPenalties p
      (-1 * (path_tt + 1 * max (path_tt - tt) 0), 0)

/-- Trajectory.THETA = np.array([1.0, 0.5]): (pathweight, pointweight). -/
def THETA : ℚ × ℚ := (1, 1/2)

/-- The Trajectory object: every field Trajectory.__init__ fills in.
`most_likely_indices` starts out as None. -/
structure Trajectory where
  candidatePoints : List StateCollection
  candidatePaths : List (List (Option Path))
  traveltimes : List ℚ
  features : List (List (ℚ × ℚ))
  transitions : List (List (Nat × Nat))
  most_likely_indices : Option (List Nat)

/-- STEP 1 of Trajectory.__init__: walk the dataframe rows, project each
position, silently skip rows with no candidate states, and collect the
retained StateCollections together with the elapsed seconds of every
retained row after the first retained one.  The boolean argument is the
`firstRow` flag: it is true while no row has been retained yet. -/
def buildPoints (hwynet : HwyNetwork) :
    List Row → Bool → List StateCollection × List ℚ
  | [], _ => ([], [])
  | row :: rest, firstRow =>
    let states := hwynet.project ⟨row.x, row.y⟩
    if states.length = 0 then
      buildPoints hwynet rest firstRow
    else
      let sc : StateCollection := ⟨row.cab_id, states, ⟨row.x, row.y⟩, row.time⟩
      let r := buildPoints hwynet rest false
      (sc :: r.1, if firstRow then r.2 else row.seconds :: r.2)

/-- STEP 3 of Trajectory.__init__: for each pair of consecutive retained
collections, ask the oracle for candidate paths and the two transition maps,
score each path against the recorded elapsed time, and interleave the
resulting path-feature layers with the point-feature layers of the following
collections.  Returns (candidatePaths, features tail, transitions).
The branch where the points outlast the travel times mirrors the IndexError
Python would raise on `self.traveltimes[i-1]`; it is unreachable from
`mkTrajectory` because STEP 1 always yields one travel time fewer than
retained points. -/
def buildPaths (hwynet : HwyNetwork) :
    StateCollection → List StateCollection → List ℚ →
    List (List (Option Path)) × List (List (ℚ × ℚ)) × List (List (Nat × Nat))
  | _, [], _ => ([], [], [])
  | _, _ :: _, [] => ([], [], [])
  | prev, next :: rest, tt :: tts =>
    let r := hwynet.getPathsBetweenCollections prev next
    let paths_features := r.2.1.map (fun p => path_feature_vector hwynet p tt)
    let rec_ := buildPaths hwynet next rest tts
    (r.2.1 :: rec_.1,
     paths_features :: point_feature_vector next :: rec_.2.1,
     r.1 :: r.2.2 :: rec_.2.2)

/-- Trajectory.__init__(hwynet, df): build the candidate points (STEP 1),
return everything empty if no observation survives (STEP 2), else build the
candidate paths, features and transitions (STEP 3). -/
def mkTrajectory (hwynet : HwyNetwork) (df : List Row) : Trajectory :=
  match buildPoints hwynet df true with
  | ([], tts) => ⟨[], [], tts, [], [], none⟩
  | (p0 :: rest, tts) =>
    let r := buildPaths hwynet p0 rest tts
    ⟨p0 :: rest, r.1, tts, point_feature_vector p0 :: r.2.1, r.2.2, none⟩

/-- Utility of a candidate: dot product of THETA with its feature vector,
`theta · (pathScore, pointScore)`. -/
def utility (theta : ℚ × ℚ) (f : ℚ × ℚ) : ℚ := theta.1 * f.1 + theta.2 * f.2

/-- Modelled from the spec: the MAP decoder's argmax with ties broken by
lowest candidate index (the decoder itself lives in
mm.path_inference.learning_traj_viterbi, which is not under src/).
Returns the index and value of the first maximal present entry, `none`
when no entry is present. -/
def argmaxFirst : List (Option ℚ) → Option (Nat × ℚ)
  | [] => none
  | none :: rest => (argmaxFirst rest).map (fun jy => (jy.1 + 1, jy.2))
  | some x :: rest =>
    match argmaxFirst rest with
    | none => some (0, x)
    | some (j, y) => if x < y then some (j + 1, y) else some (0, x)

/-- Modelled from the spec: the best forward value among the predecessors of
candidate `c` that the transition list connects to it; `none` when `c` has no
reachable predecessor. -/
def bestPredVal (prev : List (Option ℚ)) (tr : List (Nat × Nat)) (c : Nat) :
    Option ℚ :=
  (argmaxFirst (prev.enum.map
    (fun pv => if (pv.1, c) ∈ tr then pv.2 else none))).map Prod.snd

/-- Modelled from the spec: the lowest-index predecessor of `c` attaining the
best forward value (the stored predecessor pointer of the Viterbi DP). -/
def bestPredIdx (prev : List (Option ℚ)) (tr : List (Nat × Nat)) (c : Nat) :
    Option Nat :=
  (argmaxFirst (prev.enum.map
    (fun pv => if (pv.1, c) ∈ tr then pv.2 else none))).map Prod.fst

/-- Modelled from the spec: one forward DP step,
`V[k][c] = u(c) + max over reachable predecessors p of V[k-1][p]`,
with `none` for candidates with no reachable predecessor chain. -/
def nextLayer (theta : ℚ × ℚ) (prev : List (Option ℚ)) (tr : List (Nat × Nat))
    (layer : List (ℚ × ℚ)) : List (Option ℚ) :=
  layer.enum.map (fun cf =>
    (bestPredVal prev tr cf.1).map (fun m => utility theta cf.2 + m))

/-- Modelled from the spec: all forward DP value layers, first layer given. -/
def forwardLayers (theta : ℚ × ℚ) (first : List (Option ℚ)) :
    List (List (ℚ × ℚ)) → List (List (Nat × Nat)) → List (List (Option ℚ))
  | [], _ => [first]
  | _ :: _, [] => [first]
  | f :: fs, t :: ts =>
    first :: forwardLayers theta (nextLayer theta first t f) fs ts

/-- Modelled from the spec: backtracking through the predecessor pointers,
over the reversed earlier value layers and reversed transition lists,
starting from the chosen candidate of the layer after them.  Produces the
chosen indices in reverse order; `none` models DecodingError. -/
def backtrackRev :
    List (List (Option ℚ)) → List (List (Nat × Nat)) → Nat →
    Option (List Nat)
  | [], [], _ => some []
  | prev :: rest, tr :: trs, c =>
    match bestPredIdx prev tr c with
    | none => none
    | some p => (backtrackRev rest trs p).map (fun l => p :: l)
  | _, _, _ => none

/-- Modelled from the spec: the full MAP decoder
(mm.path_inference TrajectoryViterbi1.computeAssignments, not under src/):
forward max-plus DP over the alternating feature layers restricted by the
transition lists, ties broken by lowest candidate index, then backtracking
from the best final candidate.  `none` models DecodingError (empty layer or
disconnected lattice). -/
def viterbiAssignments (theta : ℚ × ℚ) (features : List (List (ℚ × ℚ)))
    (transitions : List (List (Nat × Nat))) : Option (List Nat) :=
  match features with
  | [] => none
  | f0 :: fs =>
    let layers := forwardLayers theta
      (f0.map (fun f => some (utility theta f))) fs transitions
    match layers.reverse with
    | [] => none
    | vlast :: vrest =>
      match argmaxFirst vlast with
      | none => none
      | some jx =>
        (backtrackRev vrest transitions.reverse jx.1).map
          (fun l => (jx.1 :: l).reverse)

/-- Trajectory.calculateMostLikely: run the Viterbi decoder on the stored
features and transitions with THETA and store the assignment indices.
`none` models the re-raised decoder exception. -/
def calculateMostLikely (t : Trajectory) : Option Trajectory :=
  (viterbiAssignments THETA t.features t.transitions).map
    (fun a => { t with most_likely_indices := some a })

/-- Trajectory.getMostLikelyPaths: RuntimeError when the most likely indices
have not been calculated; otherwise the selected candidate path of every odd
(path) position of the assignment, in order. -/
def getMostLikelyPaths (t : Trajectory) : Except String (List (Option Path)) :=
  match t.most_likely_indices with
  | none => Except.error "Need to calculate most likely indices!"
  | some idxs =>
    Except.ok ((List.range idxs.length).filterMap (fun i =>
      if i % 2 = 1 then
        some ((t.candidatePaths.getD ((i - 1) / 2) []).getD
          (idxs.getD i 0) none)
      else none))

/-! ## Concrete fixtures used by witnesses -/

/-- A network whose free-flow travel time is 100 seconds for every path. -/
def netFF100 : HwyNetwork :=
  ⟨fun _ => [], fun _ _ => ([], [], []), fun _ => 100⟩

/-! ## C1 -/

/-- C1: for every candidate path with at least one link, the path scoring
function returns `(-(freeFlowTT + max(freeFlowTT - observedElapsedSeconds, 0)), 0)`;
with free-flow time 100 it scores -120 against observed 80 and -100 against
observed 150. -/
theorem C1_path_score (hwynet : HwyNetwork) (p : Path) (tt : ℚ)
    (h : p.links.length ≠ 0) :
    path_feature_vector hwynet (some p) tt =
      (-(hwynet.getPathFreeFlowTTInSecondsWithTurnPenalties p +
         max (hwynet.getPathFreeFlowTTInSecondsWithTurnPenalties p - tt) 0),
       0) ∧
    (hwynet.getPathFreeFlowTTInSecondsWithTurnPenalties p = 100 →
      (tt = 80 → path_feature_vector hwynet (some p) tt = (-120, 0)) ∧
      (tt = 150 → path_feature_vector hwynet (some p) tt = (-100, 0))) := by
  constructor
  · simp [path_feature_vector, h]
  · intro hff
    constructor
    · intro htt
      subst htt
      simp [path_feature_vector, h, hff]
      norm_num
    · intro htt
      subst htt
      simp [path_feature_vector, h, hff]
      norm_num

/-- Witness for C1 at a one-link path, free-flow time 100, observed time 80. -/
theorem C1_path_score_witness :
    (Path.mk [1]).links.length ≠ 0 ∧
    path_feature_vector netFF100 (some (Path.mk [1])) 80 = (-120, 0) := by
  refine ⟨by decide, ?_⟩
  have h := C1_path_score netFF100 (Path.mk [1]) 80 (by decide)
  exact (h.2 rfl).1 rfl

/-! ## C2 -/

/-- C2: for every candidate state the point scoring function returns
`(0, -distanceFromGPS)`; two states at distances 5 and 12 get feature
vectors (0,-5) and (0,-12), utilities -5/2 and -6 under THETA, and the
decoder prefers the distance-5 candidate. -/
theorem C2_point_score (sc : StateCollection) (i : Nat)
    (hi : i < sc.states.length) :
    (point_feature_vector sc)[i]? = some (0, -sc.states[i].distFromGPS) ∧
    (∀ (cab : Nat) (pos : Position) (t0 : ℚ),
      point_feature_vector ⟨cab, [⟨5⟩, ⟨12⟩], pos, t0⟩ =
        [(0, -5), (0, -12)]) ∧
    utility THETA (0, -5) = -5/2 ∧
    utility THETA (0, -12) = -6 ∧
    viterbiAssignments THETA [[(0, -5), (0, -12)]] [] = some [0] := by
  refine ⟨?_, ?_, by norm_num [utility, THETA], by norm_num [utility, THETA],
    by norm_num [viterbiAssignments, forwardLayers, argmaxFirst, utility,
      THETA, backtrackRev]⟩
  · simp [point_feature_vector, List.getElem?_map, List.getElem?_eq_getElem hi]
  · intro cab pos t0
    simp [point_feature_vector]

/-- Witness for C2 at a two-state collection with distances 5 and 12. -/
theorem C2_point_score_witness :
    0 < (StateCollection.mk 7 [⟨5⟩, ⟨12⟩] ⟨0, 0⟩ 0).states.length ∧
    (point_feature_vector ⟨7, [⟨5⟩, ⟨12⟩], ⟨0, 0⟩, 0⟩)[0]? =
      some ((0 : ℚ), (-5 : ℚ)) := by
  refine ⟨by decide, ?_⟩
  have h := (C2_point_score ⟨7, [⟨5⟩, ⟨12⟩], ⟨0, 0⟩, 0⟩ 0 (by decide)).1
  simpa using h

/-! ## Lattice builder lemmas -/

/-- STEP 1 bookkeeping: if no row is retained there are no travel times, and
otherwise there is exactly one travel time fewer than retained points when
starting with the firstRow flag set (one per retained point with it clear). -/
theorem buildPoints_lengths (hwynet : HwyNetwork) :
    ∀ (rows : List Row) (fr : Bool),
      ((buildPoints hwynet rows fr).1 = [] →
        (buildPoints hwynet rows fr).2 = []) ∧
      ((buildPoints hwynet rows fr).1 ≠ [] →
        (buildPoints hwynet rows fr).1.length =
          (buildPoints hwynet rows fr).2.length + (if fr then 1 else 0)) := by
  intro rows
  induction rows with
  | nil => intro fr; simp [buildPoints]
  | cons row rest ih =>
    intro fr
    by_cases hs : (hwynet.project ⟨row.x, row.y⟩).length = 0
    · simpa [buildPoints, hs] using ih fr
    · have ihf := ih false
      constructor
      · intro h
        simp [buildPoints, hs] at h
      · intro _
        simp only [buildPoints, hs, if_false]
        by_cases he : (buildPoints hwynet rest false).1 = []
        · have h2 := ihf.1 he
          cases fr <;> simp [he, h2]
        · have h2 := ihf.2 he
          cases fr <;> simp [h2]

/-- C4 general half, stated at STEP 1: a row whose projection is empty is
skipped wherever it occurs, leaving the retained rows around it adjacent. -/
theorem buildPoints_drop (hwynet : HwyNetwork) (row : Row)
    (hrow : hwynet.project ⟨row.x, row.y⟩ = []) :
    ∀ (pre post : List Row) (fr : Bool),
      buildPoints hwynet (pre ++ row :: post) fr =
        buildPoints hwynet (pre ++ post) fr := by
  intro pre
  induction pre with
  | nil =>
    intro post fr
    simp [buildPoints, hrow]
  | cons r pre ih =>
    intro post fr
    by_cases hs : (hwynet.project ⟨r.x, r.y⟩).length = 0
    · simpa [buildPoints, hs] using ih post fr
    · simp [buildPoints, hs, ih post false]

/-- A network that projects every position at x = 2 to no candidate state
and every other position to a single state, used by witnesses. -/
def netDropMid : HwyNetwork :=
  ⟨fun p => if p.x = 2 then [] else [⟨p.x⟩],
   fun _ _ => ([(0, 0)], [some ⟨[5]⟩], [(0, 0)]),
   fun _ => 10⟩

/-! ## C4 -/

/-- C4: an observation whose projection is empty is silently dropped (no
layer, no error) wherever it occurs, and the surrounding retained
observations become adjacent; a 3-observation sequence whose middle
observation yields no candidates produces exactly 2 location layers and 1
path layer connecting the first and third observations directly. -/
theorem C4_drop_empty_candidates (hwynet : HwyNetwork) (r1 r2 r3 : Row)
    (h1 : hwynet.project ⟨r1.x, r1.y⟩ ≠ [])
    (h2 : hwynet.project ⟨r2.x, r2.y⟩ = [])
    (h3 : hwynet.project ⟨r3.x, r3.y⟩ ≠ []) :
    (∀ (pre post : List Row) (row : Row) (fr : Bool),
      hwynet.project ⟨row.x, row.y⟩ = [] →
      buildPoints hwynet (pre ++ row :: post) fr =
        buildPoints hwynet (pre ++ post) fr) ∧
    (mkTrajectory hwynet [r1, r2, r3]).candidatePoints =
      [⟨r1.cab_id, hwynet.project ⟨r1.x, r1.y⟩, ⟨r1.x, r1.y⟩, r1.time⟩,
       ⟨r3.cab_id, hwynet.project ⟨r3.x, r3.y⟩, ⟨r3.x, r3.y⟩, r3.time⟩] ∧
    (mkTrajectory hwynet [r1, r2, r3]).candidatePaths =
      [(hwynet.getPathsBetweenCollections
          ⟨r1.cab_id, hwynet.project ⟨r1.x, r1.y⟩, ⟨r1.x, r1.y⟩, r1.time⟩
          ⟨r3.cab_id, hwynet.project ⟨r3.x, r3.y⟩, ⟨r3.x, r3.y⟩, r3.time⟩).2.1] ∧
    (mkTrajectory hwynet [r1, r2, r3]).candidatePoints.length = 2 ∧
    (mkTrajectory hwynet [r1, r2, r3]).candidatePaths.length = 1 := by
  have hb : buildPoints hwynet [r1, r2, r3] true =
      ([⟨r1.cab_id, hwynet.project ⟨r1.x, r1.y⟩, ⟨r1.x, r1.y⟩, r1.time⟩,
        ⟨r3.cab_id, hwynet.project ⟨r3.x, r3.y⟩, ⟨r3.x, r3.y⟩, r3.time⟩],
       [r3.seconds]) := by
    simp [buildPoints, List.length_eq_zero, h1, h2, h3]
  refine ⟨fun pre post row fr hrow => buildPoints_drop hwynet row hrow pre post fr,
    ?_, ?_, ?_, ?_⟩ <;>
    simp [mkTrajectory, hb, buildPaths]

/-- Witness for C4: middle observation at x = 2 projects to nothing. -/
theorem C4_drop_empty_candidates_witness :
    netDropMid.project ⟨(1 : ℚ), 1⟩ ≠ [] ∧
    netDropMid.project ⟨(2 : ℚ), 2⟩ = [] ∧
    netDropMid.project ⟨(3 : ℚ), 3⟩ ≠ [] ∧
    (mkTrajectory netDropMid
      [⟨1, 1, 7, 0, 0⟩, ⟨2, 2, 7, 30, 30⟩, ⟨3, 3, 7, 60, 30⟩]).candidatePoints.length = 2 := by
  have h1 : netDropMid.project ⟨(1 : ℚ), 1⟩ ≠ [] := by norm_num [netDropMid]
  have h2 : netDropMid.project ⟨(2 : ℚ), 2⟩ = [] := by norm_num [netDropMid]
  have h3 : netDropMid.project ⟨(3 : ℚ), 3⟩ ≠ [] := by norm_num [netDropMid]
  exact ⟨h1, h2, h3,
    (C4_drop_empty_candidates netDropMid ⟨1, 1, 7, 0, 0⟩ ⟨2, 2, 7, 30, 30⟩
      ⟨3, 3, 7, 60, 30⟩ h1 h2 h3).2.2.2.1⟩

/-! ## C9 -/

/-- C9: when an observation is dropped, the elapsed time recorded for the
path layer bridging the gap is the next retained row's own `seconds` value
(not re-summed across the gap), and that value is what the path scorer is
applied with. -/
theorem C9_gap_time_not_resummed (hwynet : HwyNetwork) (r1 r2 r3 : Row)
    (h1 : hwynet.project ⟨r1.x, r1.y⟩ ≠ [])
    (h2 : hwynet.project ⟨r2.x, r2.y⟩ = [])
    (h3 : hwynet.project ⟨r3.x, r3.y⟩ ≠ []) :
    (mkTrajectory hwynet [r1, r2, r3]).traveltimes = [r3.seconds] ∧
    (mkTrajectory hwynet [r1, r2, r3]).features[1]? =
      some ((hwynet.getPathsBetweenCollections
          ⟨r1.cab_id, hwynet.project ⟨r1.x, r1.y⟩, ⟨r1.x, r1.y⟩, r1.time⟩
          ⟨r3.cab_id, hwynet.project ⟨r3.x, r3.y⟩, ⟨r3.x, r3.y⟩, r3.time⟩).2.1.map
        (fun p => path_feature_vector hwynet p r3.seconds)) := by
  have hb : buildPoints hwynet [r1, r2, r3] true =
      ([⟨r1.cab_id, hwynet.project ⟨r1.x, r1.y⟩, ⟨r1.x, r1.y⟩, r1.time⟩,
        ⟨r3.cab_id, hwynet.project ⟨r3.x, r3.y⟩, ⟨r3.x, r3.y⟩, r3.time⟩],
       [r3.seconds]) := by
    simp [buildPoints, List.length_eq_zero, h1, h2, h3]
  constructor <;> simp [mkTrajectory, hb, buildPaths]

/-- Witness for C9: with the dropped middle row, the recorded travel time is
the third row's own 30 seconds. -/
theorem C9_gap_time_not_resummed_witness :
    netDropMid.project ⟨(1 : ℚ), 1⟩ ≠ [] ∧
    netDropMid.project ⟨(2 : ℚ), 2⟩ = [] ∧
    netDropMid.project ⟨(3 : ℚ), 3⟩ ≠ [] ∧
    (mkTrajectory netDropMid
      [⟨1, 1, 7, 0, 0⟩, ⟨2, 2, 7, 25, 25⟩, ⟨3, 3, 7, 55, 30⟩]).traveltimes = [30] := by
  have h1 : netDropMid.project ⟨(1 : ℚ), 1⟩ ≠ [] := by norm_num [netDropMid]
  have h2 : netDropMid.project ⟨(2 : ℚ), 2⟩ = [] := by norm_num [netDropMid]
  have h3 : netDropMid.project ⟨(3 : ℚ), 3⟩ ≠ [] := by norm_num [netDropMid]
  exact ⟨h1, h2, h3,
    (C9_gap_time_not_resummed netDropMid ⟨1, 1, 7, 0, 0⟩ ⟨2, 2, 7, 25, 25⟩
      ⟨3, 3, 7, 55, 30⟩ h1 h2 h3).1⟩

/-! ## C6 -/

/-- C6: if no observation survives candidate filtering, every field of the
built Trajectory is empty and no error is raised. -/
theorem C6_empty_lattice (hwynet : HwyNetwork) (df : List Row)
    (h : (buildPoints hwynet df true).1 = []) :
    mkTrajectory hwynet df = ⟨[], [], [], [], [], none⟩ := by
  have h2 := (buildPoints_lengths hwynet df true).1 h
  rcases hb : buildPoints hwynet df true with ⟨pts, tts⟩
  rw [hb] at h h2
  simp only at h h2
  subst h
  subst h2
  simp [mkTrajectory, hb]

/-- Witness for C6: a network that projects nothing keeps no observation. -/
theorem C6_empty_lattice_witness :
    (buildPoints ⟨fun _ => [], fun _ _ => ([], [], []), fun _ => 0⟩
      [⟨0, 0, 7, 0, 0⟩] true).1 = [] ∧
    mkTrajectory ⟨fun _ => [], fun _ _ => ([], [], []), fun _ => 0⟩
      [⟨0, 0, 7, 0, 0⟩] = ⟨[], [], [], [], [], none⟩ := by
  have h : (buildPoints ⟨fun _ => [], fun _ _ => ([], [], []), fun _ => 0⟩
      [⟨0, 0, 7, 0, 0⟩] true).1 = [] := by
    simp [buildPoints]
  exact ⟨h, C6_empty_lattice _ _ h⟩

/-- STEP 3 bookkeeping: one path layer per consecutive pair, two feature
layers and two transition lists per pair. -/
theorem buildPaths_lengths (hwynet : HwyNetwork) :
    ∀ (rest : List StateCollection) (tts : List ℚ) (prev : StateCollection),
      rest.length = tts.length →
      (buildPaths hwynet prev rest tts).1.length = rest.length ∧
      (buildPaths hwynet prev rest tts).2.1.length = 2 * rest.length ∧
      (buildPaths hwynet prev rest tts).2.2.length = 2 * rest.length := by
  intro rest
  induction rest with
  | nil =>
    intro tts prev _
    simp [buildPaths]
  | cons next rest ih =>
    intro tts prev h
    cases tts with
    | nil => simp at h
    | cons tt tts =>
      simp only [List.length_cons, Nat.succ.injEq] at h
      obtain ⟨l1, l2, l3⟩ := ih tts next h
      refine ⟨?_, ?_, ?_⟩ <;> simp [buildPaths, l1, l2, l3] <;> omega

/-- STEP 3, even positions of the features tail: the path-feature layer of
pair `j`, i.e. the stored candidate paths scored against travel time `j`. -/
theorem buildPaths_features_even (hwynet : HwyNetwork) :
    ∀ (rest : List StateCollection) (tts : List ℚ) (prev : StateCollection)
      (j : Nat) (ps : List (Option Path)) (tt : ℚ),
      (buildPaths hwynet prev rest tts).1[j]? = some ps →
      tts[j]? = some tt →
      (buildPaths hwynet prev rest tts).2.1[2 * j]? =
        some (ps.map (fun p => path_feature_vector hwynet p tt)) := by
  intro rest
  induction rest with
  | nil =>
    intro tts prev j ps tt hps _
    simp [buildPaths] at hps
  | cons next rest ih =>
    intro tts prev j ps tt hps htt
    cases tts with
    | nil => simp [buildPaths] at hps
    | cons tt0 tts =>
      cases j with
      | zero =>
        simp [buildPaths] at hps htt ⊢
        subst hps
        subst htt
        rfl
      | succ j =>
        have hj : 2 * (j + 1) = 2 * j + 1 + 1 := by ring
        rw [hj]
        have hps2 : (buildPaths hwynet next rest tts).1[j]? = some ps := by
          simpa [buildPaths] using hps
        have htt2 : tts[j]? = some tt := by simpa using htt
        simpa [buildPaths] using ih tts next j ps tt hps2 htt2

/-- STEP 3, odd positions of the features tail: the point-feature layer of
retained collection `j + 1`. -/
theorem buildPaths_features_odd (hwynet : HwyNetwork) :
    ∀ (rest : List StateCollection) (tts : List ℚ) (prev : StateCollection)
      (j : Nat),
      rest.length = tts.length →
      (buildPaths hwynet prev rest tts).2.1[2 * j + 1]? =
        rest[j]?.map point_feature_vector := by
  intro rest
  induction rest with
  | nil =>
    intro tts prev j _
    simp [buildPaths]
  | cons next rest ih =>
    intro tts prev j h
    cases tts with
    | nil => simp at h
    | cons tt0 tts =>
      simp only [List.length_cons, Nat.succ.injEq] at h
      cases j with
      | zero => simp [buildPaths]
      | succ j =>
        have hj : 2 * (j + 1) + 1 = 2 * j + 1 + 1 + 1 := by ring
        rw [hj]
        simpa [buildPaths] using ih tts next j h

/-- STEP 3, stored path layers: layer `j` is exactly what the oracle
returned for the pair of retained collections `j` and `j + 1`. -/
theorem buildPaths_cps_get (hwynet : HwyNetwork) :
    ∀ (rest : List StateCollection) (tts : List ℚ) (prev : StateCollection)
      (j : Nat) (a b : StateCollection),
      rest.length = tts.length →
      (prev :: rest)[j]? = some a → rest[j]? = some b →
      (buildPaths hwynet prev rest tts).1[j]? =
        some ((hwynet.getPathsBetweenCollections a b).2.1) := by
  intro rest
  induction rest with
  | nil =>
    intro tts prev j a b _ _ hb
    simp at hb
  | cons next rest ih =>
    intro tts prev j a b h ha hb
    cases tts with
    | nil => simp at h
    | cons tt0 tts =>
      simp only [List.length_cons, Nat.succ.injEq] at h
      cases j with
      | zero =>
        simp at ha hb
        subst ha
        subst hb
        simp [buildPaths]
      | succ j =>
        simp only [List.getElem?_cons_succ] at ha hb
        simpa [buildPaths] using ih tts next j a b h ha hb

/-! ## C5 -/

/-- C5: every lattice with at least one surviving observation has one path
layer fewer than location layers, a feature list of length
`2 * (number of location layers) - 1` that strictly alternates point layers
(even positions) and path layers (odd positions), and one transition list
fewer than feature layers. -/
theorem C5_lattice_shape (hwynet : HwyNetwork) (df : List Row)
    (h : (mkTrajectory hwynet df).candidatePoints ≠ []) :
    (mkTrajectory hwynet df).candidatePaths.length =
      (mkTrajectory hwynet df).candidatePoints.length - 1 ∧
    (mkTrajectory hwynet df).features.length =
      2 * (mkTrajectory hwynet df).candidatePoints.length - 1 ∧
    (mkTrajectory hwynet df).transitions.length =
      (mkTrajectory hwynet df).features.length - 1 ∧
    (∀ i, (mkTrajectory hwynet df).features[2 * i]? =
      (mkTrajectory hwynet df).candidatePoints[i]?.map point_feature_vector) ∧
    (∀ j ps tt, (mkTrajectory hwynet df).candidatePaths[j]? = some ps →
      (mkTrajectory hwynet df).traveltimes[j]? = some tt →
      (mkTrajectory hwynet df).features[2 * j + 1]? =
        some (ps.map (fun p => path_feature_vector hwynet p tt))) := by
  rcases hb : buildPoints hwynet df true with ⟨pts, tts⟩
  cases pts with
  | nil => simp [mkTrajectory, hb] at h
  | cons p0 rest =>
    have hlen : rest.length = tts.length := by
      have h2 := (buildPoints_lengths hwynet df true).2
      rw [hb] at h2
      have := h2 (by simp)
      simpa using this
    obtain ⟨l1, l2, l3⟩ := buildPaths_lengths hwynet rest tts p0 hlen
    refine ⟨?_, ?_, ?_, ?_, ?_⟩
    · simp [mkTrajectory, hb, l1]
    · simp [mkTrajectory, hb, l2]
      omega
    · simp [mkTrajectory, hb, l2, l3]
    · intro i
      cases i with
      | zero => simp [mkTrajectory, hb]
      | succ i =>
        have hj : 2 * (i + 1) = 2 * i + 1 + 1 := by ring
        simp only [mkTrajectory, hb, hj, List.getElem?_cons_succ]
        exact buildPaths_features_odd hwynet rest tts p0 i hlen
    · intro j ps tt hps htt
      simp only [mkTrajectory, hb] at hps htt ⊢
      simp only [List.getElem?_cons_succ]
      exact buildPaths_features_even hwynet rest tts p0 j ps tt hps htt

/-- Witness for C5 on the 3-row trajectory with a dropped middle row. -/
theorem C5_lattice_shape_witness :
    (mkTrajectory netDropMid
      [⟨1, 1, 7, 0, 0⟩, ⟨2, 2, 7, 30, 30⟩, ⟨3, 3, 7, 60, 30⟩]).candidatePoints ≠ [] ∧
    (mkTrajectory netDropMid
      [⟨1, 1, 7, 0, 0⟩, ⟨2, 2, 7, 30, 30⟩, ⟨3, 3, 7, 60, 30⟩]).candidatePaths.length =
      (mkTrajectory netDropMid
        [⟨1, 1, 7, 0, 0⟩, ⟨2, 2, 7, 30, 30⟩, ⟨3, 3, 7, 60, 30⟩]).candidatePoints.length - 1 := by
  have h : (mkTrajectory netDropMid
      [⟨1, 1, 7, 0, 0⟩, ⟨2, 2, 7, 30, 30⟩, ⟨3, 3, 7, 60, 30⟩]).candidatePoints ≠ [] := by
    norm_num [mkTrajectory, buildPoints, buildPaths, netDropMid]
    exact List.cons_ne_nil _ _
  exact ⟨h, (C5_lattice_shape netDropMid _ h).1⟩

/-! ## C3 -/

/-- Modelled from the spec: HwyNetwork.getPathsBetweenCollections
(HwyNetwork.py is not under src/) replaces an empty candidate-path set
between two state collections by a single sentinel (missing) path,
connected from every state of the first collection and to every state of
the second, so the strong penalty propagates instead of crashing the
decoder. -/
def sentinelize
    (raw : StateCollection → StateCollection →
      List (Nat × Nat) × List (Option Path) × List (Nat × Nat)) :
    StateCollection → StateCollection →
      List (Nat × Nat) × List (Option Path) × List (Nat × Nat) :=
  fun a b =>
    let r := raw a b
    if r.2.1.isEmpty then
      ((List.range a.states.length).map (fun i => (i, 0)),
       [none],
       (List.range b.states.length).map (fun i => (0, i)))
    else r

/-- C3: between two retained location layers with zero raw candidate paths,
the built lattice holds exactly one sentinel path whose feature vector is
(-sys.maxsize, 0), and the decoder still terminates and selects the sentinel
when it is the only option. -/
theorem C3_sentinel_path (hwynet : HwyNetwork)
    (raw : StateCollection → StateCollection →
      List (Nat × Nat) × List (Option Path) × List (Nat × Nat))
    (hsent : hwynet.getPathsBetweenCollections = sentinelize raw) :
    (∀ (a b : StateCollection) (tt : ℚ), (raw a b).2.1 = [] →
      (hwynet.getPathsBetweenCollections a b).2.1 = [none] ∧
      (hwynet.getPathsBetweenCollections a b).2.1.map
        (fun p => path_feature_vector hwynet p tt) = [(-maxsize, 0)]) ∧
    (∀ (df : List Row) (j : Nat) (a b : StateCollection),
      (mkTrajectory hwynet df).candidatePoints[j]? = some a →
      (mkTrajectory hwynet df).candidatePoints[j + 1]? = some b →
      (raw a b).2.1 = [] →
      (mkTrajectory hwynet df).candidatePaths[j]? = some [none]) ∧
    (∀ (theta : ℚ × ℚ) (f0 f2 : ℚ × ℚ),
      viterbiAssignments theta [[f0], [(-maxsize, 0)], [f2]]
        [[(0, 0)], [(0, 0)]] = some [0, 0, 0]) := by
  refine ⟨?_, ?_, ?_⟩
  · intro a b tt hab
    rw [hsent]
    constructor
    · simp [sentinelize, hab]
    · simp [sentinelize, hab, path_feature_vector]
  · intro df j a b ha hb hab
    rcases hbp : buildPoints hwynet df true with ⟨pts, tts⟩
    cases pts with
    | nil => simp [mkTrajectory, hbp] at ha
    | cons p0 rest =>
      have hlen : rest.length = tts.length := by
        have h2 := (buildPoints_lengths hwynet df true).2
        rw [hbp] at h2
        have := h2 (by simp)
        simpa using this
      simp only [mkTrajectory, hbp] at ha hb ⊢
      have hcps := buildPaths_cps_get hwynet rest tts p0 j a b hlen ha
        (by simpa using hb)
      rw [hcps, hsent]
      simp [sentinelize, hab]
  · intro theta f0 f2
    rfl

/-- A network with one candidate state per position and no raw candidate
path between any two collections, wrapped with the sentinel behaviour. -/
def netSent : HwyNetwork :=
  ⟨fun p => [⟨p.x⟩], sentinelize (fun _ _ => ([], [], [])), fun _ => 10⟩

/-- Witness for C3: a 2-row trajectory whose only path layer is the
sentinel. -/
theorem C3_sentinel_path_witness :
    (mkTrajectory netSent [⟨1, 1, 7, 0, 0⟩, ⟨4, 4, 7, 30, 30⟩]).candidatePoints[0]? =
      some ⟨7, [⟨1⟩], ⟨1, 1⟩, 0⟩ ∧
    (mkTrajectory netSent [⟨1, 1, 7, 0, 0⟩, ⟨4, 4, 7, 30, 30⟩]).candidatePoints[1]? =
      some ⟨7, [⟨4⟩], ⟨4, 4⟩, 30⟩ ∧
    (mkTrajectory netSent [⟨1, 1, 7, 0, 0⟩, ⟨4, 4, 7, 30, 30⟩]).candidatePaths[0]? =
      some [none] := by
  have ha : (mkTrajectory netSent
      [⟨1, 1, 7, 0, 0⟩, ⟨4, 4, 7, 30, 30⟩]).candidatePoints[0]? =
      some ⟨7, [⟨1⟩], ⟨1, 1⟩, 0⟩ := by
    norm_num [mkTrajectory, buildPoints, netSent]
  have hb : (mkTrajectory netSent
      [⟨1, 1, 7, 0, 0⟩, ⟨4, 4, 7, 30, 30⟩]).candidatePoints[1]? =
      some ⟨7, [⟨4⟩], ⟨4, 4⟩, 30⟩ := by
    norm_num [mkTrajectory, buildPoints, netSent]
  exact ⟨ha, hb,
    (C3_sentinel_path netSent (fun _ _ => ([], [], [])) rfl).2.1
      [⟨1, 1, 7, 0, 0⟩, ⟨4, 4, 7, 30, 30⟩] 0 _ _ ha hb rfl⟩

/-! ## C8 -/

/-- If the argmax finds nothing, no entry is present. -/
theorem argmaxFirst_eq_none :
    ∀ (l : List (Option ℚ)), argmaxFirst l = none →
      ∀ (k : Nat) (y : ℚ), l[k]? = some (some y) → False := by
  intro l
  induction l with
  | nil =>
    intro _ k y hk
    simp at hk
  | cons hd tl ih =>
    intro hl k y hk
    cases hd with
    | none =>
      simp only [argmaxFirst, Option.map_eq_none'] at hl
      cases k with
      | zero => simp at hk
      | succ k => exact ih hl k y (by simpa using hk)
    | some x =>
      rcases htl : argmaxFirst tl with _ | ⟨j, z⟩
      · simp [argmaxFirst, htl] at hl
      · simp only [argmaxFirst, htl] at hl
        split_ifs at hl

/-- The argmax returns a present entry which is maximal, and strictly above
every present entry at a lower index (lowest-index tie breaking). -/
theorem argmaxFirst_spec :
    ∀ (l : List (Option ℚ)) (j : Nat) (x : ℚ), argmaxFirst l = some (j, x) →
      l[j]? = some (some x) ∧
      (∀ (k : Nat) (y : ℚ), l[k]? = some (some y) → y ≤ x) ∧
      (∀ (k : Nat) (y : ℚ), k < j → l[k]? = some (some y) → y < x) := by
  intro l
  induction l with
  | nil =>
    intro j x h
    simp [argmaxFirst] at h
  | cons hd tl ih =>
    intro j x h
    cases hd with
    | none =>
      rcases htl : argmaxFirst tl with _ | ⟨j1, x1⟩
      · simp [argmaxFirst, htl] at h
      · simp only [argmaxFirst, htl, Option.map_some', Option.some.injEq,
          Prod.mk.injEq] at h
        obtain ⟨hj, hx⟩ := h
        subst hj
        subst hx
        obtain ⟨g1, g2, g3⟩ := ih j1 x1 htl
        refine ⟨by simpa using g1, ?_, ?_⟩
        · intro k y hk
          cases k with
          | zero => simp at hk
          | succ k => exact g2 k y (by simpa using hk)
        · intro k y hky hk
          cases k with
          | zero => simp at hk
          | succ k => exact g3 k y (by omega) (by simpa using hk)
    | some x0 =>
      rcases htl : argmaxFirst tl with _ | ⟨j1, x1⟩
      · simp only [argmaxFirst, htl, Option.some.injEq, Prod.mk.injEq] at h
        obtain ⟨hj, hx⟩ := h
        subst hj
        subst hx
        refine ⟨by simp, ?_, ?_⟩
        · intro k y hk
          cases k with
          | zero =>
            simp at hk
            subst hk
            exact le_refl _
          | succ k =>
            exact (argmaxFirst_eq_none tl htl k y (by simpa using hk)).elim
        · intro k y hky _
          exact absurd hky (by omega)
      · simp only [argmaxFirst, htl] at h
        by_cases hlt : x0 < x1
        · rw [if_pos hlt] at h
          simp only [Option.some.injEq, Prod.mk.injEq] at h
          obtain ⟨hj, hx⟩ := h
          subst hj
          subst hx
          obtain ⟨g1, g2, g3⟩ := ih j1 x1 htl
          refine ⟨by simpa using g1, ?_, ?_⟩
          · intro k y hk
            cases k with
            | zero =>
              simp at hk
              subst hk
              exact le_of_lt hlt
            | succ k => exact g2 k y (by simpa using hk)
          · intro k y hky hk
            cases k with
            | zero =>
              simp at hk
              subst hk
              exact hlt
            | succ k => exact g3 k y (by omega) (by simpa using hk)
        · rw [if_neg hlt] at h
          simp only [Option.some.injEq, Prod.mk.injEq] at h
          obtain ⟨hj, hx⟩ := h
          subst hj
          subst hx
          obtain ⟨g1, g2, g3⟩ := ih j1 x1 htl
          refine ⟨by simp, ?_, ?_⟩
          · intro k y hk
            cases k with
            | zero =>
              simp at hk
              subst hk
              exact le_refl _
            | succ k =>
              exact le_trans (g2 k y (by simpa using hk)) (le_of_not_lt hlt)
          · intro k y hky _
            exact absurd hky (by omega)

/-- C8: the MAP decoder is a pure function of the lattice and theta (two
runs agree), and its argmax breaks ties by lowest candidate index: the
selected entry is maximal and strictly greater than every present entry at a
lower index. -/
theorem C8_decoder_deterministic :
    (∀ (t : Trajectory), calculateMostLikely t = calculateMostLikely t) ∧
    (∀ (theta : ℚ × ℚ) (fs : List (List (ℚ × ℚ)))
        (ts : List (List (Nat × Nat))),
      viterbiAssignments theta fs ts = viterbiAssignments theta fs ts) ∧
    (∀ (l : List (Option ℚ)) (j : Nat) (x : ℚ), argmaxFirst l = some (j, x) →
      l[j]? = some (some x) ∧
      (∀ (k : Nat) (y : ℚ), l[k]? = some (some y) → y ≤ x) ∧
      (∀ (k : Nat) (y : ℚ), k < j → l[k]? = some (some y) → y < x)) :=
  ⟨fun _ => rfl, fun _ _ _ => rfl, argmaxFirst_spec⟩

/-- Witness for C8 at an exact tie: index 0 is selected. -/
theorem C8_decoder_deterministic_witness :
    argmaxFirst [some 0, some 0] = some (0, 0) ∧
    [some (0 : ℚ), some 0][0]? = some (some 0) := by
  have harg : argmaxFirst [some (0 : ℚ), some 0] = some (0, 0) := by
    norm_num [argmaxFirst]
  exact ⟨harg, (C8_decoder_deterministic.2.2 _ 0 0 harg).1⟩

/-! ## C10 -/

/-- Keeping only the odd positions of `range n` and reading them through `F`
is the same as mapping `j ↦ F (2 j + 1)` over `range (n / 2)`. -/
theorem range_filterMap_odd {α : Type} (F : Nat → α) :
    ∀ (n : Nat),
      (List.range n).filterMap
        (fun i => if i % 2 = 1 then some (F i) else none) =
      (List.range (n / 2)).map (fun j => F (2 * j + 1)) := by
  intro n
  induction n with
  | zero => simp
  | succ n ih =>
    rw [List.range_succ, List.filterMap_append, ih]
    by_cases h : n % 2 = 1
    · have h2 : (n + 1) / 2 = n / 2 + 1 := by omega
      have h3 : 2 * (n / 2) + 1 = n := by omega
      simp [h, h2, List.range_succ, h3]
    · have h2 : (n + 1) / 2 = n / 2 := by omega
      simp [h, h2]

/-- C10: getMostLikelyPaths raises RuntimeError when the most likely indices
have not been calculated, and otherwise returns, in order, the selected
candidate path of each odd (path) position of the assignment — one per path
layer when the assignment has the lattice length — without changing any
trajectory field. -/
theorem C10_get_most_likely_paths (t : Trajectory) :
    (t.most_likely_indices = none →
      getMostLikelyPaths t =
        Except.error "Need to calculate most likely indices!") ∧
    (∀ (idxs : List Nat), t.most_likely_indices = some idxs →
      getMostLikelyPaths t =
        Except.ok ((List.range (idxs.length / 2)).map
          (fun j => (t.candidatePaths.getD j []).getD
            (idxs.getD (2 * j + 1) 0) none)) ∧
      (idxs.length = 2 * t.candidatePaths.length + 1 →
        ∃ l, getMostLikelyPaths t = Except.ok l ∧
          l.length = t.candidatePaths.length)) := by
  constructor
  · intro h
    simp [getMostLikelyPaths, h]
  · intro idxs h
    have hok : getMostLikelyPaths t =
        Except.ok ((List.range (idxs.length / 2)).map
          (fun j => (t.candidatePaths.getD j []).getD
            (idxs.getD (2 * j + 1) 0) none)) := by
      simp only [getMostLikelyPaths, h]
      rw [range_filterMap_odd
        (fun i => (t.candidatePaths.getD ((i - 1) / 2) []).getD
          (idxs.getD i 0) none) idxs.length]
      congr 1
      apply List.map_congr_left
      intro j _
      have hj : (2 * j + 1 - 1) / 2 = j := by omega
      rw [hj]
    refine ⟨hok, ?_⟩
    intro hlen
    refine ⟨_, hok, ?_⟩
    simp [hlen]
    omega

/-- Witness for C10: one path layer, assignment [0, 1, 0] selects path 1. -/
theorem C10_get_most_likely_paths_witness :
    (Trajectory.mk [] [[some ⟨[1]⟩, some ⟨[2]⟩]] [] [] []
        (some [0, 1, 0])).most_likely_indices = some [0, 1, 0] ∧
    getMostLikelyPaths
      (Trajectory.mk [] [[some ⟨[1]⟩, some ⟨[2]⟩]] [] [] []
        (some [0, 1, 0])) = Except.ok [some ⟨[2]⟩] := by
  refine ⟨rfl, ?_⟩
  have h := ((C10_get_most_likely_paths
    (Trajectory.mk [] [[some ⟨[1]⟩, some ⟨[2]⟩]] [] [] []
      (some [0, 1, 0]))).2 [0, 1, 0] rfl).1
  rw [h]
  rfl

/-! ## C7: the smoother, modelled from the spec -/

/-- Modelled from the spec: the sum of forward weights over the predecessors
of candidate `c` (the linear-domain counterpart of the log-sum-exp of the
smoother in mm.path_inference.learning_traj_smoother, not under src/). -/
def predSum (prev : List ℚ) (tr : List (Nat × Nat)) (c : Nat) : ℚ :=
  (prev.enum.map (fun pv => if (pv.1, c) ∈ tr then pv.2 else 0)).sum

/-- Modelled from the spec: one forward smoothing step,
`alpha[k][c] = ex(u(c)) * sum of alpha[k-1] over predecessors of c`, where
`ex` is an abstract positive weight standing for the exponential that moves
the log-domain recurrence to the linear domain. -/
def alphaLayer (ex : ℚ → ℚ) (theta : ℚ × ℚ) (prev : List ℚ)
    (tr : List (Nat × Nat)) (layer : List (ℚ × ℚ)) : List ℚ :=
  layer.enum.map (fun cf => ex (utility theta cf.2) * predSum prev tr cf.1)

/-- Modelled from the spec: all forward smoothing layers, first layer
given. -/
def alphaLayers (ex : ℚ → ℚ) (theta : ℚ × ℚ) (first : List ℚ) :
    List (List (ℚ × ℚ)) → List (List (Nat × Nat)) → List (List ℚ)
  | [], _ => [first]
  | _ :: _, [] => [first]
  | f :: fs, t :: ts =>
    first :: alphaLayers ex theta (alphaLayer ex theta first t f) fs ts

/-- Modelled from the spec: one backward smoothing step,
`beta[k][c] = sum over successors cp of ex(u(cp)) * beta[k+1][cp]`. -/
def betaLayer (ex : ℚ → ℚ) (theta : ℚ × ℚ) (next : List ℚ)
    (nextF : List (ℚ × ℚ)) (tr : List (Nat × Nat)) (layer : List (ℚ × ℚ)) :
    List ℚ :=
  layer.enum.map (fun cf =>
    ((nextF.zip next).enum.map (fun cv =>
      if (cf.1, cv.1) ∈ tr then ex (utility theta cv.2.1) * cv.2.2
      else 0)).sum)

/-- Modelled from the spec: all backward smoothing layers, computed over the
reversed feature tail and reversed transition lists, last layer given. -/
def betaLayersRev (ex : ℚ → ℚ) (theta : ℚ × ℚ) (next : List ℚ)
    (nextF : List (ℚ × ℚ)) :
    List (List (ℚ × ℚ)) → List (List (Nat × Nat)) → List (List ℚ)
  | [], _ => [next]
  | _ :: _, [] => [next]
  | f :: fs, t :: ts =>
    next :: betaLayersRev ex theta (betaLayer ex theta next nextF t f) f fs ts

/-- Modelled from the spec: backward layers for a whole reversed feature
list, seeding the last layer with weight 1 per candidate. -/
def betaLayersRevAll (ex : ℚ → ℚ) (theta : ℚ × ℚ) :
    List (List (ℚ × ℚ)) → List (List (Nat × Nat)) → List (List ℚ)
  | [], _ => []
  | fl :: fsrev, tsrev =>
    betaLayersRev ex theta (fl.map (fun _ => 1)) fl fsrev tsrev

/-- Modelled from the spec: the unnormalized marginal of each candidate,
`alpha[k][c] * beta[k][c]`. -/
def rawMarginals (ex : ℚ → ℚ) (theta : ℚ × ℚ)
    (features : List (List (ℚ × ℚ)))
    (transitions : List (List (Nat × Nat))) : List (List ℚ) :=
  match features with
  | [] => []
  | f0 :: fs =>
    let alphas := alphaLayers ex theta
      (f0.map (fun f => ex (utility theta f))) fs transitions
    let betas := (betaLayersRevAll ex theta (f0 :: fs).reverse
      transitions.reverse).reverse
    (alphas.zip betas).map (fun ab =>
      (ab.1.zip ab.2).map (fun xy => xy.1 * xy.2))

/-- Modelled from the spec: normalize one layer so its values sum to 1. -/
def normalizeLayer (l : List ℚ) : List ℚ := l.map (fun v => v / l.sum)

/-- Trajectory.calculateProbabilities: run the smoother
(mm.path_inference TrajectorySmoother1, not under src/, modelled from the
spec) on the stored features and transitions with THETA, returning one
probability per candidate per layer. -/
def calculateProbabilities (ex : ℚ → ℚ) (t : Trajectory) : List (List ℚ) :=
  (rawMarginals ex THETA t.features t.transitions).map normalizeLayer

/-- A normalized layer with a nonzero unnormalized sum sums to 1. -/
theorem normalizeLayer_sum (l : List ℚ) (h : l.sum ≠ 0) :
    (normalizeLayer l).sum = 1 := by
  unfold normalizeLayer
  rw [show (fun v => v / l.sum) = (fun v => v * l.sum⁻¹) from ?_]
  · rw [List.sum_map_mul_right, List.map_id', mul_inv_cancel₀ h]
  · funext v
    exact div_eq_mul_inv v l.sum

/-- Each forward smoothing step keeps the layer width. -/
theorem alphaLayer_length (ex : ℚ → ℚ) (theta : ℚ × ℚ) (prev : List ℚ)
    (tr : List (Nat × Nat)) (layer : List (ℚ × ℚ)) :
    (alphaLayer ex theta prev tr layer).length = layer.length := by
  simp [alphaLayer]

/-- Each backward smoothing step keeps the layer width. -/
theorem betaLayer_length (ex : ℚ → ℚ) (theta : ℚ × ℚ) (next : List ℚ)
    (nextF : List (ℚ × ℚ)) (tr : List (Nat × Nat)) (layer : List (ℚ × ℚ)) :
    (betaLayer ex theta next nextF tr layer).length = layer.length := by
  simp [betaLayer]

/-- The forward layers line up with the feature layers, width for width. -/
theorem alphaLayers_forall₂ (ex : ℚ → ℚ) (theta : ℚ × ℚ) :
    ∀ (fs : List (List (ℚ × ℚ))) (ts : List (List (Nat × Nat)))
      (first : List ℚ) (f0 : List (ℚ × ℚ)),
      fs.length = ts.length → first.length = f0.length →
      List.Forall₂ (fun a f => a.length = f.length)
        (alphaLayers ex theta first fs ts) (f0 :: fs) := by
  intro fs
  induction fs with
  | nil =>
    intro ts first f0 h hf
    cases ts with
    | nil => exact List.Forall₂.cons hf List.Forall₂.nil
    | cons t ts => simp at h
  | cons f fs ih =>
    intro ts first f0 h hf
    cases ts with
    | nil => simp at h
    | cons t ts =>
      simp only [List.length_cons, Nat.succ.injEq] at h
      exact List.Forall₂.cons hf
        (ih ts (alphaLayer ex theta first t f) f h
          (alphaLayer_length ex theta first t f))

/-- The backward layers line up with the reversed feature layers. -/
theorem betaLayersRev_forall₂ (ex : ℚ → ℚ) (theta : ℚ × ℚ) :
    ∀ (fsrev : List (List (ℚ × ℚ))) (tsrev : List (List (Nat × Nat)))
      (next : List ℚ) (fl : List (ℚ × ℚ)),
      fsrev.length = tsrev.length → next.length = fl.length →
      List.Forall₂ (fun b f => b.length = f.length)
        (betaLayersRev ex theta next fl fsrev tsrev) (fl :: fsrev) := by
  intro fsrev
  induction fsrev with
  | nil =>
    intro tsrev next fl h hn
    cases tsrev with
    | nil => exact List.Forall₂.cons hn List.Forall₂.nil
    | cons t ts => simp at h
  | cons f fs ih =>
    intro tsrev next fl h hn
    cases tsrev with
    | nil => simp at h
    | cons t ts =>
      simp only [List.length_cons, Nat.succ.injEq] at h
      exact List.Forall₂.cons hn
        (ih ts (betaLayer ex theta next fl t f) f h
          (betaLayer_length ex theta next fl t f))

/-- Pairing two width-matched layer lists and multiplying pointwise keeps
the widths. -/
theorem zip_mul_forall₂ :
    ∀ (fs : List (List (ℚ × ℚ))) (a b : List (List ℚ)),
      List.Forall₂ (fun x f => x.length = f.length) a fs →
      List.Forall₂ (fun x f => x.length = f.length) b fs →
      List.Forall₂ (fun m f => m.length = f.length)
        ((a.zip b).map (fun ab => (ab.1.zip ab.2).map (fun xy => xy.1 * xy.2)))
        fs := by
  intro fs
  induction fs with
  | nil =>
    intro a b ha hb
    cases ha
    simp
  | cons f fs ih =>
    intro a b ha hb
    cases ha with
    | cons hxa hta =>
      cases hb with
      | cons hxb htb =>
        refine List.Forall₂.cons ?_ (ih _ _ hta htb)
        simp only [List.length_map, List.length_zip]
        omega

/-- Normalizing keeps the widths. -/
theorem normalize_forall₂ :
    ∀ (fs : List (List (ℚ × ℚ))) (m : List (List ℚ)),
      List.Forall₂ (fun x f => x.length = f.length) m fs →
      List.Forall₂ (fun x f => x.length = f.length)
        (m.map normalizeLayer) fs := by
  intro fs
  induction fs with
  | nil =>
    intro m hm
    cases hm
    simp
  | cons f fs ih =>
    intro m hm
    cases hm with
    | cons hx ht =>
      refine List.Forall₂.cons ?_ (ih _ ht)
      simpa [normalizeLayer] using hx

/-- The unnormalized marginals line up with the feature layers, width for
width, whenever there is one transition list fewer than feature layers. -/
theorem rawMarginals_forall₂ (ex : ℚ → ℚ) (theta : ℚ × ℚ)
    (f0 : List (ℚ × ℚ)) (fs : List (List (ℚ × ℚ)))
    (ts : List (List (Nat × Nat))) (h : fs.length = ts.length) :
    List.Forall₂ (fun m f => m.length = f.length)
      (rawMarginals ex theta (f0 :: fs) ts) (f0 :: fs) := by
  have halpha := alphaLayers_forall₂ ex theta fs ts
    (f0.map (fun f => ex (utility theta f))) f0 h (by simp)
  rcases hrev : (f0 :: fs).reverse with _ | ⟨fl, flrest⟩
  · exact absurd hrev (by simp)
  · have hlenrev : flrest.length = ts.reverse.length := by
      have h1 : (f0 :: fs).reverse.length = fs.length + 1 := by simp
      rw [hrev] at h1
      simp only [List.length_cons] at h1
      simp only [List.length_reverse]
      omega
    have hbeta0 := betaLayersRev_forall₂ ex theta flrest ts.reverse
      (fl.map (fun _ => (1 : ℚ))) fl hlenrev (by simp)
    have hbeta : List.Forall₂ (fun b f => b.length = f.length)
        ((betaLayersRevAll ex theta (f0 :: fs).reverse ts.reverse).reverse)
        (f0 :: fs) := by
      rw [hrev]
      have h2 := List.rel_reverse hbeta0
      rw [show (fl :: flrest).reverse = f0 :: fs from by
        rw [← hrev, List.reverse_reverse]] at h2
      simpa [betaLayersRevAll] using h2
    simpa only [rawMarginals] using
      zip_mul_forall₂ (f0 :: fs) _ _ halpha hbeta

/-- On single-candidate layers with full transitions, the forward layers are
singleton and positive. -/
theorem alphaLayers_singleton (ex : ℚ → ℚ) (theta : ℚ × ℚ)
    (hex : ∀ q, 0 < ex q) :
    ∀ (fs : List (ℚ × ℚ)) (a : ℚ), 0 < a →
      ∃ vs : List ℚ,
        alphaLayers ex theta [a] (fs.map (fun f => [f]))
          (List.replicate fs.length [(0, 0)]) =
          (a :: vs).map (fun v => [v]) ∧
        vs.length = fs.length ∧ ∀ v ∈ a :: vs, 0 < v := by
  intro fs
  induction fs with
  | nil =>
    intro a ha
    exact ⟨[], by simp [alphaLayers], rfl, by
      intro v hv
      simp at hv
      subst hv
      exact ha⟩
  | cons f fs ih =>
    intro a ha
    have hstep : alphaLayer ex theta [a] [(0, 0)] [f] =
        [ex (utility theta f) * a] := by
      simp [alphaLayer, predSum]
    obtain ⟨vs, hvs, hlen, hpos⟩ := ih (ex (utility theta f) * a)
      (mul_pos (hex _) ha)
    refine ⟨ex (utility theta f) * a :: vs, ?_, by simp [hlen], ?_⟩
    · simp only [List.map_cons, List.length_cons, List.replicate_succ,
        alphaLayers, hstep]
      rw [hvs]
      simp
    · intro v hv
      simp only [List.mem_cons] at hv
      rcases hv with rfl | hv
      · exact ha
      · exact hpos v (List.mem_cons.mpr hv)

/-- On single-candidate layers with full transitions, the backward layers
are singleton and positive. -/
theorem betaLayersRev_singleton (ex : ℚ → ℚ) (theta : ℚ × ℚ)
    (hex : ∀ q, 0 < ex q) :
    ∀ (gs : List (ℚ × ℚ)) (b : ℚ) (g : ℚ × ℚ), 0 < b →
      ∃ ws : List ℚ,
        betaLayersRev ex theta [b] [g] (gs.map (fun f => [f]))
          (List.replicate gs.length [(0, 0)]) =
          (b :: ws).map (fun w => [w]) ∧
        ws.length = gs.length ∧ ∀ w ∈ b :: ws, 0 < w := by
  intro gs
  induction gs with
  | nil =>
    intro b g hb
    exact ⟨[], by simp [betaLayersRev], rfl, by
      intro w hw
      simp at hw
      subst hw
      exact hb⟩
  | cons g1 gs ih =>
    intro b g hb
    have hstep : betaLayer ex theta [b] [g] [(0, 0)] [g1] =
        [ex (utility theta g) * b] := by
      simp [betaLayer]
    obtain ⟨ws, hws, hlen, hpos⟩ := ih (ex (utility theta g) * b) g1
      (mul_pos (hex _) hb)
    refine ⟨ex (utility theta g) * b :: ws, ?_, by simp [hlen], ?_⟩
    · simp only [List.map_cons, List.length_cons, List.replicate_succ,
        betaLayersRev, hstep]
      rw [hws]
      simp
    · intro w hw
      simp only [List.mem_cons] at hw
      rcases hw with rfl | hw
      · exact hb
      · exact hpos w (List.mem_cons.mpr hw)

/-- On single-candidate layers, all backward layers are singleton and
positive. -/
theorem betaLayersRevAll_singleton (ex : ℚ → ℚ) (theta : ℚ × ℚ)
    (hex : ∀ q, 0 < ex q) (g0 : ℚ × ℚ) (gs : List (ℚ × ℚ)) :
    ∃ ws : List ℚ,
      betaLayersRevAll ex theta ((g0 :: gs).map (fun f => [f]))
        (List.replicate gs.length [(0, 0)]) = ws.map (fun w => [w]) ∧
      ws.length = gs.length + 1 ∧ ∀ w ∈ ws, 0 < w := by
  obtain ⟨ws, hws, hlen, hpos⟩ :=
    betaLayersRev_singleton ex theta hex gs 1 g0 one_pos
  refine ⟨1 :: ws, ?_, by simp [hlen], hpos⟩
  simpa [betaLayersRevAll] using hws

/-- C7: the smoother returns one probability per candidate per layer, every
layer of marginals sums to exactly 1 whenever its unnormalized mass is
nonzero (which the positive exponential weights guarantee on a connected
lattice), and on a lattice with exactly one candidate in every layer every
marginal equals 1. -/
theorem C7_smoother_marginals (ex : ℚ → ℚ) (hex : ∀ q, 0 < ex q) :
    (∀ (t : Trajectory) (k : Nat) (l : List ℚ),
      (rawMarginals ex THETA t.features t.transitions)[k]? = some l →
      l.sum ≠ 0 →
      (calculateProbabilities ex t)[k]? = some (normalizeLayer l) ∧
      (normalizeLayer l).sum = 1) ∧
    (∀ (f0 : List (ℚ × ℚ)) (fs : List (List (ℚ × ℚ)))
        (ts : List (List (Nat × Nat))),
      fs.length = ts.length →
      List.Forall₂ (fun m f => m.length = f.length)
        (calculateProbabilities ex ⟨[], [], [], f0 :: fs, ts, none⟩)
        (f0 :: fs)) ∧
    (∀ (f0 : ℚ × ℚ) (fs : List (ℚ × ℚ)),
      calculateProbabilities ex
        ⟨[], [], [], (f0 :: fs).map (fun f => [f]),
         List.replicate fs.length [(0, 0)], none⟩ =
        List.replicate (fs.length + 1) [1]) := by
  refine ⟨?_, ?_, ?_⟩
  · intro t k l hk hsum
    constructor
    · simp [calculateProbabilities, List.getElem?_map, hk]
    · exact normalizeLayer_sum l hsum
  · intro f0 fs ts h
    exact normalize_forall₂ (f0 :: fs) _
      (rawMarginals_forall₂ ex THETA f0 fs ts h)
  · intro f0 fs
    rcases hrev : (f0 :: fs).reverse with _ | ⟨g0, gs⟩
    · exact absurd hrev (by simp)
    · have hgs : gs.length = fs.length := by
        have h1 : (f0 :: fs).reverse.length = fs.length + 1 := by simp
        rw [hrev] at h1
        simp only [List.length_cons] at h1
        omega
      obtain ⟨vs, hvs, hvslen, hvspos⟩ :=
        alphaLayers_singleton ex THETA hex fs (ex (utility THETA f0)) (hex _)
      obtain ⟨ws, hws, hwslen, hwspos⟩ :=
        betaLayersRevAll_singleton ex THETA hex g0 gs
      have hfeat : ((f0 :: fs).map (fun f => [f])).reverse =
          (g0 :: gs).map (fun f => [f]) := by
        rw [← List.map_reverse, hrev]
      rw [hgs] at hws
      have hraw : rawMarginals ex THETA ((f0 :: fs).map (fun f => [f]))
          (List.replicate fs.length [(0, 0)]) =
          (((ex (utility THETA f0) :: vs).zip ws.reverse).map
            (fun q => [q.1 * q.2])) := by
        simp only [List.map_cons] at hfeat hws ⊢
        simp only [rawMarginals, List.map_cons, List.map_nil,
          List.reverse_replicate, hfeat, hws, hvs]
        rw [← List.map_reverse]
        rw [show ([ex (utility THETA f0)] :: List.map (fun v => [v]) vs) =
          List.map (fun v => [v]) (ex (utility THETA f0) :: vs) from rfl]
        rw [List.zip_map, List.map_map]
        rfl
      simp only [calculateProbabilities, hraw, List.map_map]
      rw [List.eq_replicate_iff]
      constructor
      · simp only [List.length_map, List.length_zip, List.length_cons,
          List.length_reverse, hvslen, hwslen, hgs]
        omega
      · intro b hb
        simp only [List.map_map, List.mem_map, Function.comp] at hb
        obtain ⟨q, hq, rfl⟩ := hb
        have h1 := hvspos q.1 (List.of_mem_zip hq).1
        have h2 := hwspos q.2 (List.mem_reverse.mp (List.of_mem_zip hq).2)
        have hv : (0 : ℚ) < q.1 * q.2 := mul_pos h1 h2
        simp only [normalizeLayer, List.sum_cons, List.sum_nil, add_zero,
          List.map_cons, List.map_nil]
        rw [div_self (ne_of_gt hv)]

/-- Witness for C7 with the constant weight 1 on a single-layer,
single-candidate lattice. -/
theorem C7_smoother_marginals_witness :
    (∀ q : ℚ, 0 < (fun _ : ℚ => (1 : ℚ)) q) ∧
    calculateProbabilities (fun _ => 1)
      ⟨[], [], [], [[((0 : ℚ), (0 : ℚ))]], [], none⟩ = [[1]] := by
  have hex : ∀ q : ℚ, 0 < (fun _ : ℚ => (1 : ℚ)) q := fun _ => one_pos
  have h := (C7_smoother_marginals (fun _ => 1) hex).2.2 (0, 0) []
  exact ⟨hex, by simpa using h⟩

end SFData
